import Mathlib

/-!
Verification of the Fashion-MNIST tutorial pipeline (dziganto/MHacksX_PyTorch_Tutorial).

The notebook's code-bearing core is shallowly embedded here:
- `load_fmnist` models the dataset reader (numpy `frombuffer` + `reshape`)
  over the decompressed byte contents of the label and image files;
- `standardize` / `reshape` model the preprocessor (global mean/variance
  normalization and the (N,784) to (N,1,28,28) relayout);
- `batchesOf` models the batching iterator's slicing of a permuted epoch;
- `epochRun` / `train` model the training loop's running-loss bookkeeping
  and periodic reporting;
- `evalBatch` / `evalRun` model the evaluation loop's overall and per-class
  accuracy counters (including its hard-coded 4-sample inner loop);
- `CNN` / `forward` model the classifier topology, with the layer internals
  (convolution, pooling, affine maps) abstracted as collaborator-supplied
  functions, as the specification places the layer math out of scope.

Machine floats are modelled as exact rationals or reals; Python index and
division-by-zero errors are modelled with `Option` / `Except`.
-/

namespace FMNIST

/-- Slice a list into consecutive blocks of `n` elements; a final shorter
block keeps the remainder. This is the slicing both numpy `reshape` rows and
the batching iterator perform. -/
def chunk {α : Type} (n : ℕ) (xs : List α) : List (List α) :=
  if h : n = 0 ∨ xs.length = 0 then []
  else xs.take n :: chunk n (xs.drop n)
termination_by xs.length
decreasing_by
  simp only [not_or] at h
  simp only [List.length_drop]
  omega

/-- The sequence of block lengths produced by slicing a length-`n` sequence
into blocks of `b`. -/
def sizes (b n : ℕ) : List ℕ :=
  if b = 0 ∨ n = 0 then [] else min b n :: sizes b (n - b)
termination_by n
decreasing_by
  simp only [not_or] at *
  omega

theorem chunk_nil {α : Type} (n : ℕ) : chunk n ([] : List α) = [] := by
  rw [chunk]; simp

theorem chunk_cons {α : Type} (n : ℕ) (hn : 0 < n) (xs : List α) (hxs : xs ≠ []) :
    chunk n xs = xs.take n :: chunk n (xs.drop n) := by
  rw [chunk]
  simp [hxs, Nat.pos_iff_ne_zero.mp hn]

theorem chunk_join {α : Type} (n : ℕ) (hn : 0 < n) (xs : List α) :
    (chunk n xs).flatten = xs := by
  have key : ∀ (N : ℕ) (xs : List α), xs.length ≤ N → (chunk n xs).flatten = xs := by
    intro N
    induction N with
    | zero =>
      intro xs h
      have : xs = [] := by
        cases xs with
        | nil => rfl
        | cons a t => simp at h
      subst this
      simp [chunk_nil]
    | succ N ih =>
      intro xs h
      by_cases hx : xs = []
      · subst hx; simp [chunk_nil]
      · rw [chunk_cons n hn xs hx]
        have hlen : 0 < xs.length := List.length_pos.mpr hx
        have : (xs.drop n).length ≤ N := by
          simp only [List.length_drop]; omega
        simp only [List.flatten_cons, ih (xs.drop n) this]
        exact List.take_append_drop n xs
  exact key xs.length xs le_rfl

theorem chunk_sizes {α : Type} (b : ℕ) (hb : 0 < b) (xs : List α) :
    (chunk b xs).map List.length = sizes b xs.length := by
  have key : ∀ (N : ℕ) (xs : List α), xs.length ≤ N →
      (chunk b xs).map List.length = sizes b xs.length := by
    intro N
    induction N with
    | zero =>
      intro xs h
      have : xs = [] := by
        cases xs with
        | nil => rfl
        | cons a t => simp at h
      subst this
      rw [chunk_nil, sizes]; simp
    | succ N ih =>
      intro xs h
      by_cases hx : xs = []
      · subst hx; rw [chunk_nil, sizes]; simp
      · rw [chunk_cons b hb xs hx]
        have hlen : 0 < xs.length := List.length_pos.mpr hx
        rw [sizes]
        have hcond : ¬(b = 0 ∨ xs.length = 0) := by omega
        simp only [hcond, if_false, List.map_cons, List.length_take]
        rw [ih (xs.drop b) (by simp only [List.length_drop]; omega)]
        simp [List.length_drop]
  exact key xs.length xs le_rfl

theorem sizes_getLast (b : ℕ) (hb : 0 < b) :
    ∀ n, n % b ≠ 0 → (sizes b n).getLast? = some (n % b) := by
  intro n
  induction n using Nat.strong_induction_on with
  | _ n ih =>
    intro hmod
    have hn : n ≠ 0 := by
      intro h; subst h; simp at hmod
    rw [sizes]
    have hcond : ¬(b = 0 ∨ n = 0) := by omega
    simp only [hcond, if_false]
    by_cases hlt : n < b
    · have : n - b = 0 := by omega
      rw [this, sizes]
      simp only [or_true, if_true]
      have : min b n = n := by omega
      rw [this, Nat.mod_eq_of_lt hlt]
      rfl
    · have hge : b ≤ n := by omega
      have hsub : n - b ≠ 0 := by
        intro h
        have : n = b := by omega
        subst this
        simp at hmod
      have hmod2 : (n - b) % b = n % b := by
        have hnb : n - b + b = n := by omega
        conv_rhs => rw [← hnb]
        rw [Nat.add_mod_right]
      have htail : (sizes b (n - b)).getLast? = some ((n - b) % b) := by
        apply ih (n - b) (by omega)
        rw [hmod2]; exact hmod
      have hne : sizes b (n - b) ≠ [] := by
        intro h
        rw [h] at htail
        simp at htail
      obtain ⟨y, ys, hys⟩ := List.exists_cons_of_ne_nil hne
      rw [hys]
      rw [List.getLast?_cons_cons]
      rw [← hys, htail, hmod2]

theorem getLast?_map {α β : Type} (f : α → β) (l : List α) :
    (l.map f).getLast? = (l.getLast?).map f := by
  induction l with
  | nil => rfl
  | cons a t ih =>
    cases t with
    | nil => rfl
    | cons b u =>
      simp only [List.map_cons, List.getLast?_cons_cons] at *
      exact ih

theorem chunk_length_exact {α : Type} (k : ℕ) (hk : 0 < k) :
    ∀ (m : ℕ) (xs : List α), xs.length = m * k → (chunk k xs).length = m := by
  intro m
  induction m with
  | zero =>
    intro xs h
    simp only [Nat.zero_mul, List.length_eq_zero] at h
    subst h
    simp [chunk_nil]
  | succ m ih =>
    intro xs h
    have hx : xs ≠ [] := by
      intro hnil; subst hnil; simp at h; omega
    rw [chunk_cons k hk xs hx]
    have : (xs.drop k).length = m * k := by
      simp only [List.length_drop, h]
      ring_nf
      omega
    simp [ih (xs.drop k) this]

/- ## DatasetReader

`load_fmnist` in the notebook reads the gzip files and does
  labels = np.frombuffer(label_bytes, uint8, offset=8)
  images = np.frombuffer(image_bytes, uint8, offset=16).reshape(len(labels), 784)
The model below takes the decompressed byte contents of the two files
(file-system access and gzip inflation are environment collaborators).
`frombuffer` with an offset larger than the buffer and `reshape` with a
mismatched element count both raise ValueError in numpy; the specification's
error taxonomy calls the length-mismatch case `DatasetFormatError`. -/

/-- Error taxonomy of the dataset reader. -/
inductive DatasetError where
  | formatError
  | ioError
deriving DecidableEq

/-- The reader over decompressed label-file and image-file bytes: drop the
8-byte label header and the 16-byte image header, then cut the image payload
into rows of 784 bytes, one per label. -/
def load_fmnist (labelBytes imageBytes : List ℕ) :
    Except DatasetError (List (List ℕ) × List ℕ) :=
  if labelBytes.length < 8 then .error .formatError
  else
    let labels := labelBytes.drop 8
    if imageBytes.length < 16 then .error .formatError
    else
      let pix := imageBytes.drop 16
      if pix.length = labels.length * 784 then .ok (chunk 784 pix, labels)
      else .error .formatError

/-- Claim C4: for every valid pair of input files (well-formed headers, image
payload of exactly 784 bytes per label, labels in [0,9]) `load_fmnist`
returns as many images as labels with every returned label in [0,9]; and for
every input whose image byte length is not exactly 16 + 784*N, for the count
N implied by the label file length, it fails with the format error. -/
theorem claim_C4 :
    (∀ labelBytes imageBytes : List ℕ,
      8 ≤ labelBytes.length →
      (∀ l ∈ labelBytes.drop 8, l ≤ 9) →
      imageBytes.length = 16 + (labelBytes.length - 8) * 784 →
      ∃ imgs labels,
        load_fmnist labelBytes imageBytes = .ok (imgs, labels) ∧
        labels.length = imgs.length ∧
        ∀ l ∈ labels, l ≤ 9) ∧
    (∀ labelBytes imageBytes : List ℕ,
      8 ≤ labelBytes.length →
      imageBytes.length ≠ 16 + (labelBytes.length - 8) * 784 →
      load_fmnist labelBytes imageBytes = .error .formatError) := by
  constructor
  · intro lb ib hlb hlab hib
    refine ⟨chunk 784 (ib.drop 16), lb.drop 8, ?_, ?_, ?_⟩
    · unfold load_fmnist
      have h1 : ¬ lb.length < 8 := by omega
      have h2 : ¬ ib.length < 16 := by omega
      have h3 : (ib.drop 16).length = (lb.drop 8).length * 784 := by
        simp only [List.length_drop]
        omega
      simp only [h1, if_false, h2, h3, if_true]
    · have : (ib.drop 16).length = (lb.drop 8).length * 784 := by
        simp only [List.length_drop]; omega
      rw [chunk_length_exact 784 (by omega) (lb.drop 8).length (ib.drop 16) this]
    · exact hlab
  · intro lb ib hlb hib
    unfold load_fmnist
    have h1 : ¬ lb.length < 8 := by omega
    simp only [h1, if_false]
    by_cases h2 : ib.length < 16
    · simp [h2]
    · have h3 : ¬ (ib.drop 16).length = (lb.drop 8).length * 784 := by
        simp only [List.length_drop]
        omega
      simp only [h2, if_false, h3, if_false]

/-- Witness for C4 at a concrete pair of byte lists: a valid 2-sample pair is
accepted, and an image file one byte short is rejected. -/
theorem claim_C4_witness :
    (∃ imgs labels,
      load_fmnist [0, 0, 0, 0, 0, 0, 0, 0, 3, 9] (List.replicate (16 + 2 * 784) 0)
          = .ok (imgs, labels) ∧
      labels.length = imgs.length ∧
      ∀ l ∈ labels, l ≤ 9) ∧
    load_fmnist [0, 0, 0, 0, 0, 0, 0, 0, 3, 9] (List.replicate 17 0)
        = .error .formatError := by
  constructor
  · exact claim_C4.1 [0, 0, 0, 0, 0, 0, 0, 0, 3, 9] (List.replicate (16 + 2 * 784) 0)
      (by norm_num) (by decide) (by norm_num)
  · exact claim_C4.2 [0, 0, 0, 0, 0, 0, 0, 0, 3, 9] (List.replicate 17 0)
      (by norm_num) (by norm_num)

/- ## BatchIterator -/

/-- Modelled from the spec: the notebook's batching is
`DataLoader(train, batch_size=4, shuffle=True, num_workers=2)`, a library
collaborator not present in the source tree. Per the specification the
iterator draws a fresh permutation of the samples each epoch and then yields
consecutive slices of `B` of it until exhausted, the final shorter slice
included. `batchesOf` is that slicing applied to the (already permuted)
epoch sequence. -/
def batchesOf {α : Type} (B : ℕ) (epoch : List α) : List (List α) :=
  chunk B epoch

/-- Claim C5: one epoch over 10 samples with batch size 4 yields exactly the
batch sizes 4, 4, 2; in general every sample of the epoch appears in exactly
one batch (concatenating the batches restores the epoch sequence), the batch
sizes follow `sizes`, and when `B` does not divide `N` the final batch has
size `N mod B` rather than being dropped. -/
theorem claim_C5 :
    ∀ (B : ℕ) (epoch : List ℕ), 0 < B →
      ((batchesOf B epoch).flatten = epoch ∧
       (batchesOf B epoch).map List.length = sizes B epoch.length) ∧
      (epoch.length = 10 → B = 4 →
        (batchesOf B epoch).map List.length = [4, 4, 2]) ∧
      (epoch.length % B ≠ 0 →
        ((batchesOf B epoch).getLastD []).length = epoch.length % B) := by
  intro B epoch hB
  refine ⟨⟨chunk_join B hB epoch, chunk_sizes B hB epoch⟩, ?_, ?_⟩
  · intro hlen hB4
    subst hB4
    unfold batchesOf
    rw [chunk_sizes 4 (by omega) epoch, hlen]
    rw [sizes]; norm_num
    rw [sizes]; norm_num
    rw [sizes]; norm_num
    rw [sizes]; norm_num
  · intro hmod
    have h1 : ((batchesOf B epoch).map List.length).getLast? = some (epoch.length % B) := by
      unfold batchesOf
      rw [chunk_sizes B hB epoch]
      exact sizes_getLast B hB epoch.length hmod
    rw [getLast?_map] at h1
    rw [List.getLastD_eq_getLast?]
    cases h2 : (batchesOf B epoch).getLast? with
    | none => rw [h2] at h1; simp at h1
    | some blk =>
      rw [h2] at h1
      simp only [Option.getD_some]
      simp only [Option.map] at h1
      exact Option.some.inj h1

/-- Witness for C5 at the concrete epoch 0..9 with batch size 4. -/
theorem claim_C5_witness :
    (batchesOf 4 (List.range 10)).flatten = List.range 10 ∧
    (batchesOf 4 (List.range 10)).map List.length = [4, 4, 2] ∧
    ((batchesOf 4 (List.range 10)).getLastD []).length = 2 := by
  refine ⟨(claim_C5 4 (List.range 10) (by omega)).1.1, ?_, ?_⟩
  · exact (claim_C5 4 (List.range 10) (by omega)).2.1 (by simp) rfl
  · have h := (claim_C5 4 (List.range 10) (by omega)).2.2
      (by rw [List.length_range]; omega)
    rw [List.length_range] at h
    exact h

/- ## Preprocessor

The notebook defines
  def standardize(ndarray):
      return (ndarray - ndarray.mean()) / np.sqrt(ndarray.var() + 1e-5)
and then relays the flat arrays with X.reshape(-1, 1, 28, 28).
numpy `mean`/`var` are the global scalar mean and population variance of the
whole array, and the subtraction/division broadcast elementwise. Arrays are
modelled as nested lists of reals; `npMean`/`npVar` take the statistics of
the flattened contents. -/

noncomputable def npMean (a : List (List ℝ)) : ℝ :=
  a.flatten.sum / a.flatten.length

noncomputable def npVar (a : List (List ℝ)) : ℝ :=
  (a.flatten.map (fun v => (v - npMean a) ^ 2)).sum / a.flatten.length

/-- `standardize` from the notebook: subtract the global mean and divide by
sqrt of the global variance plus 1e-5, elementwise. -/
noncomputable def standardize (a : List (List ℝ)) : List (List ℝ) :=
  a.map (fun row => row.map (fun v => (v - npMean a) / Real.sqrt (npVar a + 1e-5)))

/-- The shape of a 2-d array: the list of its row lengths. -/
def shape {α : Type} (a : List (List α)) : List ℕ :=
  a.map List.length

/-- Element `(i, j)` of a 2-d array (out-of-range reads default). -/
noncomputable def entry (a : List (List ℝ)) (i j : ℕ) : ℝ :=
  (a.getD i []).getD j 0

/-- Claim C6: `standardize` keeps the shape and replaces every element `v`
by `(v - mean) / sqrt(var + 1e-5)`, with the single global scalar mean and
variance of the entire array. -/
theorem claim_C6 :
    ∀ (a : List (List ℝ)),
      shape (standardize a) = shape a ∧
      ∀ i j, i < a.length → j < (a.getD i []).length →
        entry (standardize a) i j =
          (entry a i j - npMean a) / Real.sqrt (npVar a + 1e-5) := by
  intro a
  constructor
  · simp [shape, standardize, List.map_map, Function.comp]
  · intro i j hi hj
    have hi2 : i < (standardize a).length := by
      simpa [standardize] using hi
    have hrow : (standardize a).getD i [] =
        (a.getD i []).map (fun v => (v - npMean a) / Real.sqrt (npVar a + 1e-5)) := by
      rw [List.getD_eq_getElem _ _ hi2, List.getD_eq_getElem _ _ hi]
      simp [standardize]
    have hj2 : j < ((a.getD i []).map
        (fun v => (v - npMean a) / Real.sqrt (npVar a + 1e-5))).length := by
      simpa using hj
    unfold entry
    rw [hrow, List.getD_eq_getElem _ _ hj2, List.getD_eq_getElem _ _ hj]
    simp

/-- Witness for C6 at the concrete array [[1,2],[3]], element (1,0). -/
theorem claim_C6_witness :
    shape (standardize [[(1:ℝ), 2], [3]]) = shape [[(1:ℝ), 2], [3]] ∧
    entry (standardize [[(1:ℝ), 2], [3]]) 1 0 =
      (entry [[(1:ℝ), 2], [3]] 1 0 - npMean [[(1:ℝ), 2], [3]]) /
        Real.sqrt (npVar [[(1:ℝ), 2], [3]] + 1e-5) :=
  ⟨(claim_C6 [[(1:ℝ), 2], [3]]).1,
   (claim_C6 [[(1:ℝ), 2], [3]]).2 1 0 (by norm_num) (by simp [List.getD])⟩

theorem sum_of_const {c : ℝ} : ∀ (l : List ℝ), (∀ v ∈ l, v = c) →
    l.sum = c * l.length := by
  intro l
  induction l with
  | nil => intro _; simp
  | cons x t ih =>
    intro h
    have hx : x = c := h x (by simp)
    have ht : t.sum = c * t.length := ih (fun v hv => h v (by simp [hv]))
    simp [hx, ht]
    ring

/-- Claim C8: on a constant array the denominator sqrt(var + 1e-5) is
strictly positive (no division-by-zero failure) and the result is the
all-zero array of the same shape. -/
theorem claim_C8 :
    ∀ (a : List (List ℝ)) (c : ℝ),
      (∀ v ∈ a.flatten, v = c) →
      0 < Real.sqrt (npVar a + 1e-5) ∧
      standardize a = a.map (fun row => row.map (fun _ => (0:ℝ))) := by
  intro a c hconst
  have hvar : 0 ≤ npVar a := by
    unfold npVar
    apply div_nonneg
    · apply List.sum_nonneg
      intro x hx
      obtain ⟨v, _, hv⟩ := List.mem_map.mp hx
      rw [← hv]
      positivity
    · positivity
  have hpos : 0 < Real.sqrt (npVar a + 1e-5) := by
    apply Real.sqrt_pos.mpr
    have : (0:ℝ) < 1e-5 := by norm_num
    linarith
  refine ⟨hpos, ?_⟩
  unfold standardize
  apply List.map_congr_left
  intro row hrow
  apply List.map_congr_left
  intro v hv
  have hvmem : v ∈ a.flatten := List.mem_flatten.mpr ⟨row, hrow, hv⟩
  have hvc : v = c := hconst v hvmem
  have hmean : npMean a = c := by
    have hne : a.flatten ≠ [] := by
      intro hnil
      rw [hnil] at hvmem
      exact absurd hvmem (List.not_mem_nil v)
    have hlen : (0:ℝ) < a.flatten.length := by
      have := List.length_pos.mpr hne
      exact_mod_cast this
    unfold npMean
    rw [sum_of_const a.flatten hconst]
    exact mul_div_cancel_right₀ c (ne_of_gt hlen)
  rw [hvc, hmean]
  simp

/-- Witness for C8 at the concrete constant array [[5,5],[5]]. -/
theorem claim_C8_witness :
    0 < Real.sqrt (npVar [[(5:ℝ), 5], [5]] + 1e-5) ∧
    standardize [[(5:ℝ), 5], [5]] = [[0, 0], [0]] := by
  have h := claim_C8 [[(5:ℝ), 5], [5]] 5 (by intro v hv; simp at hv; tauto)
  exact ⟨h.1, h.2.trans (by simp)⟩

/-- The notebook's X.reshape(-1, 1, 28, 28) on an (N, 784) array: each flat
row becomes one (1, 28, 28) image, cut row-major into 28 rows of 28. -/
def reshape {α : Type} (a : List (List α)) : List (List (List (List α))) :=
  a.map (fun row => [chunk 28 row])

/-- The inverse relayout back to (N, 784): concatenate channels and rows. -/
def flattenBack {α : Type} (t : List (List (List (List α)))) : List (List α) :=
  t.map (fun img => img.flatten.flatten)

/-- Pixel (channel-0, row `r`, column `c`) of sample `i` of a reshaped
tensor. -/
def pix {α : Type} (t : List (List (List (List α)))) (i r c : ℕ) : Option α :=
  (((t.getD i []).getD 0 []).getD r [])[c]?

theorem chunk_getD {α : Type} (n : ℕ) (hn : 0 < n) :
    ∀ (i : ℕ) (xs : List α), i * n < xs.length →
      (chunk n xs).getD i [] = (xs.drop (i * n)).take n := by
  intro i
  induction i with
  | zero =>
    intro xs h
    have hx : xs ≠ [] := by
      intro hnil; subst hnil; simp at h
    rw [chunk_cons n hn xs hx]
    simp
  | succ i ih =>
    intro xs h
    have hmul : (i + 1) * n = i * n + n := by ring
    have hx : xs ≠ [] := by
      intro hnil; subst hnil; simp at h
    rw [chunk_cons n hn xs hx]
    have hih : i * n < (xs.drop n).length := by
      simp only [List.length_drop]
      omega
    simp only [List.getD_cons_succ]
    rw [ih (xs.drop n) hih]
    rw [List.drop_drop]
    congr 2
    omega

/-- Claim C7: `reshape` is the row-major bijection between the flat (N,784)
layout and the (N,1,28,28) layout: flattening the reshaped tensor restores
the original element sequence exactly, and pixel (r,c) of image i is flat
element r*28+c of row i. -/
theorem claim_C7 :
    ∀ (α : Type) (a : List (List α)),
      (∀ row ∈ a, row.length = 784) →
      flattenBack (reshape a) = a ∧
      ∀ i r c, i < a.length → r < 28 → c < 28 →
        pix (reshape a) i r c = (a.getD i [])[r * 28 + c]? := by
  intro α a hlen
  constructor
  · unfold flattenBack reshape
    rw [List.map_map]
    have : ∀ row ∈ a, ((fun img => List.flatten (List.flatten img)) ∘
        fun row => [chunk 28 row]) row = id row := by
      intro row _
      simp [chunk_join 28 (by omega) row]
    rw [List.map_congr_left this, List.map_id]
  · intro i r c hi hr hc
    have hi2 : i < (reshape a).length := by
      simpa [reshape] using hi
    have hrow : (reshape a).getD i [] = [chunk 28 (a.getD i [])] := by
      rw [List.getD_eq_getElem _ _ hi2, List.getD_eq_getElem _ _ hi]
      simp [reshape]
    have hrlen : (a.getD i []).length = 784 := by
      rw [List.getD_eq_getElem _ _ hi]
      exact hlen _ (List.getElem_mem hi)
    unfold pix
    rw [hrow]
    simp only [List.getD_cons_zero]
    rw [chunk_getD 28 (by omega) r (a.getD i []) (by omega)]
    rw [List.getElem?_take_of_lt hc, List.getElem?_drop]

/-- Witness for C7 at the concrete single-row array [range 784],
pixel (1, 2). -/
theorem claim_C7_witness :
    flattenBack (reshape [List.range 784]) = [List.range 784] ∧
    pix (reshape [List.range 784]) 0 1 2 =
      (([List.range 784]).getD 0 [])[1 * 28 + 2]? := by
  have h := claim_C7 ℕ [List.range 784]
    (by intro row hr; rw [List.mem_singleton] at hr; rw [hr]; exact List.length_range 784)
  exact ⟨h.1, h.2 0 1 2 (by norm_num) (by norm_num) (by norm_num)⟩

/- ## Trainer

The notebook's training loop (cell with nb_epochs = 3, minibatches = 5000):

  for epoch in range(nb_epochs):
      running_loss = 0.0
      for i, data in enumerate(train_loader, 0):
          ... forward, loss, backward, optimizer.step() ...
          running_loss += loss
          if i % minibatches == minibatches - 1:
              print((epoch + 1, i + 1, running_loss / minibatches))
              running_loss = 0.0

The loss values themselves come from the numeric collaborator (out of scope);
the loop is modelled over a given list of per-batch loss values per epoch,
as exact rationals. `epochRun m e i rl ls` runs the inner loop from batch
index `i` with accumulator `rl`, returning the emitted report tuples and
the final accumulator value. -/

def epochRun (m e : ℕ) : ℕ → ℚ → List ℚ → List (ℕ × ℕ × ℚ) × ℚ
  | _, rl, [] => ([], rl)
  | i, rl, l :: ls =>
    if i % m = m - 1 then
      ((e + 1, i + 1, (rl + l) / m) :: (epochRun m e (i + 1) 0 ls).1,
       (epochRun m e (i + 1) 0 ls).2)
    else epochRun m e (i + 1) (rl + l) ls

/-- The outer epoch loop of the notebook: each epoch starts with
`running_loss = 0.0` and its final accumulator value is discarded. -/
def trainGo (m : ℕ) : ℕ → List (List ℚ) → List (ℕ × ℕ × ℚ)
  | _, [] => []
  | e, ls :: rest => (epochRun m e 0 0 ls).1 ++ trainGo m (e + 1) rest

/-- All report tuples `(epoch+1, batch_index+1, mean)` emitted by the
training loop. -/
def train (m : ℕ) (lss : List (List ℚ)) : List (ℕ × ℕ × ℚ) :=
  trainGo m 0 lss

/-- The claim's reading of the accumulator discipline, as a comparison
point: the running loss is reset ONLY at report boundaries, so its value is
carried from the end of one epoch into the next instead of being zeroed. -/
def specTrainGo (m : ℕ) : ℕ → ℚ → List (List ℚ) → List (ℕ × ℕ × ℚ)
  | _, _, [] => []
  | e, rl, ls :: rest =>
    (epochRun m e 0 rl ls).1 ++ specTrainGo m (e + 1) (epochRun m e 0 rl ls).2 rest

def specTrain (m : ℕ) (lss : List (List ℚ)) : List (ℕ × ℕ × ℚ) :=
  specTrainGo m 0 0 lss

/-- Counterexample to C2 as stated: with report interval 2 and epochs of
3 and 2 batches of loss 1 each, epoch 0 ends with a nonzero accumulator (1)
and no report boundary, yet the code starts epoch 1 from accumulator 0: the
accumulator is reset outside a report-interval boundary. A trainer that
resets ONLY at report boundaries (`specTrain`, carrying the accumulator
across epochs) emits a different second report, so the code differs from
the claim's discipline at this input. -/
theorem claim_C2_cex :
    (epochRun 2 0 0 0 [1, 1, 1]).2 = 1 ∧
    train 2 [[1, 1, 1], [1, 1]] = [(1, 2, 1), (2, 2, 1)] ∧
    specTrain 2 [[1, 1, 1], [1, 1]] = [(1, 2, 1), (2, 2, 3/2)] ∧
    specTrain 2 [[1, 1, 1], [1, 1]] ≠ train 2 [[1, 1, 1], [1, 1]] := by
  refine ⟨?_, ?_, ?_, ?_⟩
  · norm_num [epochRun]
  · norm_num [train, trainGo, epochRun]
  · norm_num [specTrain, specTrainGo, epochRun]
  · norm_num [specTrain, specTrainGo, train, trainGo, epochRun]

theorem epochRun_noreport (m e : ℕ) :
    ∀ (ls : List ℚ) (i : ℕ) (rl : ℚ),
      (∀ j, j < ls.length → (i + j) % m ≠ m - 1) →
      epochRun m e i rl ls = ([], rl + ls.sum) := by
  intro ls
  induction ls with
  | nil =>
    intro i rl _
    simp [epochRun]
  | cons l t ih =>
    intro i rl h
    have h0 : i % m ≠ m - 1 := by
      have := h 0 (by simp)
      simpa using this
    simp only [epochRun, if_neg h0]
    rw [ih (i + 1) (rl + l) (fun j hj => by
      have := h (j + 1) (by simp; omega)
      have harith : i + 1 + j = i + (j + 1) := by omega
      rw [harith]
      exact this)]
    simp only [List.sum_cons]
    congr 1
    ring

theorem epochRun_append (m e : ℕ) :
    ∀ (l₁ l₂ : List ℚ) (i : ℕ) (rl : ℚ),
      epochRun m e i rl (l₁ ++ l₂) =
        ((epochRun m e i rl l₁).1 ++
           (epochRun m e (i + l₁.length) (epochRun m e i rl l₁).2 l₂).1,
         (epochRun m e (i + l₁.length) (epochRun m e i rl l₁).2 l₂).2) := by
  intro l₁
  induction l₁ with
  | nil =>
    intro l₂ i rl
    simp [epochRun]
  | cons l t ih =>
    intro l₂ i rl
    have hidx : i + (l :: t).length = (i + 1) + t.length := by
      simp only [List.length_cons]
      omega
    rw [hidx]
    by_cases h : i % m = m - 1
    · simp only [List.cons_append, epochRun, if_pos h, List.append_eq]
      rw [ih l₂ (i + 1) 0]
    · simp only [List.cons_append, epochRun, if_neg h, List.append_eq]
      rw [ih l₂ (i + 1) (rl + l)]

theorem epochRun_block (m : ℕ) (hm : 0 < m) (e q : ℕ) (blk : List ℚ)
    (hb : blk.length = m) :
    epochRun m e (q * m) 0 blk = ([(e + 1, q * m + m, blk.sum / m)], 0) := by
  have hsplit : blk.take (m - 1) ++ blk.drop (m - 1) = blk := List.take_append_drop _ _
  have hlen1 : (blk.take (m - 1)).length = m - 1 := by
    simp [hb]
  have hlen2 : (blk.drop (m - 1)).length = 1 := by
    simp [hb]; omega
  obtain ⟨x, hx⟩ := List.length_eq_one.mp hlen2
  have hsum : blk.sum = (blk.take (m - 1)).sum + x := by
    conv_lhs => rw [← hsplit]
    rw [List.sum_append, hx]
    simp
  conv_lhs => rw [← hsplit]
  rw [epochRun_append]
  have hfirst : epochRun m e (q * m) 0 (blk.take (m - 1)) = ([], (blk.take (m - 1)).sum) := by
    rw [epochRun_noreport m e (blk.take (m - 1)) (q * m) 0 ?_]
    · rw [zero_add]
    · intro j hj
      rw [hlen1] at hj
      have : (q * m + j) % m = j := by
        rw [Nat.add_comm, Nat.add_mul_mod_self_right]
        exact Nat.mod_eq_of_lt (by omega)
      omega
  rw [hfirst, hlen1, hx]
  have hcond : (q * m + (m - 1)) % m = m - 1 := by
    rw [Nat.add_comm, Nat.add_mul_mod_self_right]
    exact Nat.mod_eq_of_lt (by omega)
  simp only [epochRun, if_pos hcond]
  have h1 : q * m + (m - 1) + 1 = q * m + m := by omega
  rw [h1, ← hsum]
  simp

theorem epochRun_eq (m : ℕ) (hm : 0 < m) :
    ∀ (n : ℕ) (ls : List ℚ), ls.length = n → ∀ (e q : ℕ),
      epochRun m e (q * m) 0 ls =
        ((List.range (n / m)).map (fun k =>
            (e + 1, (q + k + 1) * m, ((ls.drop (k * m)).take m).sum / m)),
         (ls.drop (n / m * m)).sum) := by
  intro n
  induction n using Nat.strong_induction_on with
  | _ n ih =>
    intro ls hlen e q
    by_cases hnm : n < m
    · have hdiv : n / m = 0 := Nat.div_eq_of_lt hnm
      rw [hdiv]
      simp only [List.range_zero, List.map_nil, Nat.zero_mul, List.drop_zero]
      rw [epochRun_noreport m e ls (q * m) 0 ?_]
      · rw [zero_add]
      · intro j hj
        rw [hlen] at hj
        have : (q * m + j) % m = j := by
          rw [Nat.add_comm, Nat.add_mul_mod_self_right]
          exact Nat.mod_eq_of_lt (by omega)
        omega
    · have hge : m ≤ n := by omega
      have hsplit : ls.take m ++ ls.drop m = ls := List.take_append_drop m ls
      have hlen1 : (ls.take m).length = m := by
        simp [hlen]; omega
      conv_lhs => rw [← hsplit]
      rw [epochRun_append]
      rw [epochRun_block m hm e q (ls.take m) hlen1]
      simp only [hlen1]
      have hlen2 : (ls.drop m).length = n - m := by
        simp [hlen]
      have hq1 : q * m + m = (q + 1) * m := by ring
      rw [hq1]
      rw [ih (n - m) (by omega) (ls.drop m) hlen2 e (q + 1)]
      have hdiv : n / m = (n - m) / m + 1 := Nat.div_eq_sub_div hm hge
      rw [hdiv, List.range_succ_eq_map]
      simp only [List.map_cons, List.map_map, List.cons_append, List.nil_append]
      rw [Nat.zero_mul, List.drop_zero, List.drop_drop]
      have hnum : q + 0 + 1 = q + 1 := by omega
      rw [hnum]
      have hleft : m + (n - m) / m * m = ((n - m) / m + 1) * m := by ring
      rw [hleft]
      congr 1
      congr 1
      apply List.map_congr_left
      intro k hk
      simp only [Function.comp_apply, Nat.succ_eq_add_one]
      have h2 : q + 1 + k + 1 = q + (k + 1) + 1 := by omega
      have h3 : List.drop (k * m) (List.drop m ls) = List.drop ((k + 1) * m) ls := by
        rw [List.drop_drop]
        congr 1
        ring
      rw [h2, h3]

theorem trainGo_eq (m : ℕ) (hm : 0 < m) :
    ∀ (lss : List (List ℚ)) (e0 : ℕ),
      trainGo m e0 lss =
        ((List.range lss.length).map (fun j =>
            (List.range ((lss.getD j []).length / m)).map (fun k =>
               (e0 + j + 1, (k + 1) * m,
                (((lss.getD j []).drop (k * m)).take m).sum / m)))).flatten := by
  intro lss
  induction lss with
  | nil =>
    intro e0
    simp [trainGo]
  | cons ls rest ih =>
    intro e0
    simp only [trainGo]
    have h := epochRun_eq m hm ls.length ls rfl e0 0
    rw [Nat.zero_mul] at h
    have h1 : (epochRun m e0 0 0 ls).1 = (List.range (ls.length / m)).map
        (fun k => (e0 + 1, (0 + k + 1) * m, ((ls.drop (k * m)).take m).sum / (m:ℚ))) := by
      rw [h]
    rw [h1, ih (e0 + 1)]
    rw [List.length_cons, List.range_succ_eq_map]
    simp only [List.map_cons, List.map_map, List.flatten_cons]
    congr 1
    · apply List.map_congr_left
      intro k _
      simp only [List.getD_cons_zero, Nat.zero_add, Nat.add_zero]
    · congr 1
      apply List.map_congr_left
      intro j _
      simp only [Function.comp_apply, Nat.succ_eq_add_one, List.getD_cons_succ]
      have hE : e0 + 1 + j + 1 = e0 + (j + 1) + 1 := by omega
      simp only [hE]

/-- Amended claim C2: within each epoch, after every `report_interval`
batches the trainer emits `(epoch+1, batch_index+1, mean loss over exactly
the last report_interval batches of that epoch)` and resets the running-loss
accumulator; but the accumulator is ALSO reset to zero at the start of every
epoch, so the losses after an epoch's last full interval are discarded
unreported — the epoch's final accumulator value is exactly the sum of those
leftover losses. -/
theorem claim_C2 :
    ∀ (m : ℕ), 0 < m → ∀ (lss : List (List ℚ)),
      (train m lss = ((List.range lss.length).map (fun e =>
          (List.range ((lss.getD e []).length / m)).map (fun k =>
             (e + 1, (k + 1) * m,
              (((lss.getD e []).drop (k * m)).take m).sum / m)))).flatten) ∧
      ∀ (e : ℕ) (ls : List ℚ),
        (epochRun m e 0 0 ls).2 = (ls.drop (ls.length / m * m)).sum := by
  intro m hm lss
  constructor
  · unfold train
    rw [trainGo_eq m hm lss 0]
    simp only [Nat.zero_add]
  · intro e ls
    have h := epochRun_eq m hm ls.length ls rfl e 0
    rw [Nat.zero_mul] at h
    rw [h]

/-- Witness for the amended C2 at report interval 2 and epochs of losses
[1,1,1] and [1,1]: reports are the per-epoch interval means and epoch 0
ends with leftover accumulator 1 (discarded by the epoch-start reset). -/
theorem claim_C2_witness :
    train 2 [[1, 1, 1], [1, 1]] = [(1, 2, 1), (2, 2, 1)] ∧
    (epochRun 2 0 0 0 [1, 1, 1]).2 = 1 := by
  have h := claim_C2 2 (by omega) [[1, 1, 1], [1, 1]]
  constructor
  · rw [h.1]
    norm_num [List.range_succ]
  · rw [h.2 0 [1, 1, 1]]
    norm_num

/- ## Evaluator

The notebook's evaluation loop:

  correct = 0; total = 0
  correct_class = list(0. for i in range(10)); total_class = list(0. for i in range(10))
  for data in test_loader:
      images, labels = data
      outputs = cnn(Variable(images))
      _, predicted = torch.max(outputs.data, 1)
      total += labels.size(0)
      correct += (predicted == labels).sum()
      c = (predicted == labels).squeeze()
      for i in range(4):
          label = labels[i]
          correct_class[label] += c[i]
          total_class[label] += 1
  print(accuracy line with 100*correct/total)

`argmax` is torch.max(.,1)[1]: the lowest index attaining the maximum score.
The inner per-class loop is hard-coded to range(4); reading past the end of
`labels` raises IndexError, modelled by `Option`. The final accuracy line
divides by `total` unconditionally; `overallAccuracy` returns `none` for the
ZeroDivisionError case. -/

structure EvalState where
  correct : ℕ
  total : ℕ
  correct_class : List ℕ
  total_class : List ℕ
deriving DecidableEq

def initEval : EvalState :=
  ⟨0, 0, List.replicate 10 0, List.replicate 10 0⟩

def argmaxAux : List ℚ → ℕ → ℕ → ℚ → ℕ
  | [], _, bi, _ => bi
  | s :: rest, i, bi, bv =>
    if bv < s then argmaxAux rest (i + 1) i s else argmaxAux rest (i + 1) bi bv

/-- Lowest index of the maximal score (torch.max over dim 1). -/
def argmax : List ℚ → ℕ
  | [] => 0
  | s :: rest => argmaxAux rest 1 0 s

/-- One iteration of the per-class loop body: `correct_class[label] += c[i]`
and `total_class[label] += 1`. -/
def tallyOne (s : EvalState) (p label : ℕ) : EvalState :=
  { s with
    correct_class := s.correct_class.set label
      (s.correct_class.getD label 0 + (if p = label then 1 else 0)),
    total_class := s.total_class.set label (s.total_class.getD label 0 + 1) }

/-- The `for i in range(4)` per-class loop; `none` models the IndexError on
a batch shorter than 4 and the (impossible for this dataset) out-of-range
label. -/
def classUpdate (s : EvalState) (preds labels : List ℕ) : Option EvalState :=
  (List.range 4).foldlM (fun st i =>
    match labels[i]?, preds[i]? with
    | some label, some p =>
      if label < st.correct_class.length ∧ label < st.total_class.length
      then some (tallyOne st p label) else none
    | _, _ => none) s

/-- One batch of the evaluation loop: predictions by arg-max of the forward
scores, overall counters by actual batch size, then the per-class loop. -/
def evalBatch {α : Type} (f : α → List ℚ) (s : EvalState)
    (batch : List α × List ℕ) : Option EvalState :=
  let preds := batch.1.map (fun x => argmax (f x))
  let labels := batch.2
  classUpdate
    { s with
      total := s.total + labels.length,
      correct := s.correct + (preds.zip labels).countP (fun pl => pl.1 == pl.2) }
    preds labels

/-- The whole evaluation pass over a list of batches. -/
def evalRun {α : Type} (f : α → List ℚ)
    (batches : List (List α × List ℕ)) : Option EvalState :=
  batches.foldlM (evalBatch f) initEval

/-- The overall-accuracy computation 100*correct/total, performed by the code
unconditionally; `none` models the ZeroDivisionError when total = 0. -/
def overallAccuracy (s : EvalState) : Option ℚ :=
  if s.total = 0 then none else some (100 * s.correct / s.total)

/-- Counterexample to C3 as stated: the per-class loop is hard-coded
`for i in range(4)`, so a partial batch of size 2 reads `labels[2]`, an
out-of-range index (IndexError, modelled `none`); the samples of a final
partial batch of size < B are not tallied, they crash the loop. -/
theorem claim_C3_cex :
    evalRun (fun _ : ℕ => ([] : List ℚ)) [([5, 6], [1, 2])] = none := by
  decide

/-- Counterexample to C9 as stated: the evaluator on the empty batch set does
end with total = 0, but the code then computes 100*correct/total with no
guard, which IS a division by zero there (ZeroDivisionError, modelled
`none`), contradicting the claimed absence of a division by zero. -/
theorem claim_C9_cex :
    evalRun (fun _ : ℕ => ([] : List ℚ)) [] = some initEval ∧
    initEval.total = 0 ∧
    overallAccuracy initEval = none :=
  ⟨rfl, rfl, rfl⟩

/-- Amended claim C9: on an empty batch set the evaluator terminates with
total = 0, and the unconditional overall-accuracy computation
100*correct/total is then a division by zero (an unguarded
ZeroDivisionError), for every classifier. -/
theorem claim_C9 :
    ∀ (α : Type) (f : α → List ℚ),
      evalRun f [] = some initEval ∧
      initEval.total = 0 ∧
      overallAccuracy initEval = none := by
  intro α f
  exact ⟨rfl, rfl, rfl⟩

/-- The evaluator together with the classifier parameters it reads: the loop
body only performs forward passes `fwd params` and counter updates; there is
no backward call and no optimizer step in it. -/
structure EvalMachine (P : Type) where
  params : P
  stats : EvalState
deriving DecidableEq

def evalStepM {P α : Type} (fwd : P → α → List ℚ) (M : EvalMachine P)
    (b : List α × List ℕ) : Option (EvalMachine P) :=
  (evalBatch (fwd M.params) M.stats b).map (fun s2 => ⟨M.params, s2⟩)

def evalRunM {P α : Type} (fwd : P → α → List ℚ) (M0 : EvalMachine P)
    (batches : List (List α × List ℕ)) : Option (EvalMachine P) :=
  batches.foldlM (evalStepM fwd) M0

/-- Claim C10: the evaluation pass never touches the classifier parameters:
whenever it terminates, the parameters after the pass are identical to the
parameters before it, for every forward function, starting state and batch
list. -/
theorem claim_C10 :
    ∀ (P α : Type) (fwd : P → α → List ℚ) (M0 : EvalMachine P)
      (batches : List (List α × List ℕ)) (M1 : EvalMachine P),
      evalRunM fwd M0 batches = some M1 → M1.params = M0.params := by
  intro P α fwd M0 batches
  induction batches generalizing M0 with
  | nil =>
    intro M1 h
    simp only [evalRunM, List.foldlM] at h
    cases h
    rfl
  | cons b rest ih =>
    intro M1 h
    simp only [evalRunM, List.foldlM] at h
    cases hstep : evalStepM fwd M0 b with
    | none =>
      rw [hstep] at h
      simp at h
    | some M2 =>
      rw [hstep] at h
      rw [Option.bind_eq_bind] at h
      simp only [Option.some_bind] at h
      have h2 : evalRunM fwd M2 rest = some M1 := h
      have hp2 : M2.params = M0.params := by
        unfold evalStepM at hstep
        cases hb : evalBatch (fwd M0.params) M0.stats b with
        | none => rw [hb] at hstep; simp at hstep
        | some s2 =>
          rw [hb] at hstep
          simp only [Option.map_some'] at hstep
          cases hstep
          rfl
      rw [ih M2 M1 h2, hp2]

/-- Witness for C10: a concrete run over one batch of four class-0 samples
with parameter 7 terminates and leaves the parameter at 7. -/
theorem claim_C10_witness :
    ∃ M1 : EvalMachine ℕ,
      evalRunM (fun (p : ℕ) (_ : ℕ) => [(p : ℚ)]) ⟨7, initEval⟩
          [([0, 0, 0, 0], [0, 0, 0, 0])] = some M1 ∧
      M1.params = 7 := by
  have h : evalRunM (fun (p : ℕ) (_ : ℕ) => [(p : ℚ)]) ⟨7, initEval⟩
      [([0, 0, 0, 0], [0, 0, 0, 0])] =
      some ⟨7, ⟨4, 4, [4, 0, 0, 0, 0, 0, 0, 0, 0, 0],
                      [4, 0, 0, 0, 0, 0, 0, 0, 0, 0]⟩⟩ := by
    decide
  exact ⟨_, h, claim_C10 ℕ ℕ _ _ _ _ h⟩

theorem list_len4 {α : Type} (l : List α) (h : l.length = 4) :
    ∃ a b c d, l = [a, b, c, d] := by
  cases l with
  | nil => simp at h
  | cons a t =>
    cases t with
    | nil => simp at h
    | cons b u =>
      cases u with
      | nil => simp at h
      | cons c v =>
        cases v with
        | nil => simp at h
        | cons d w =>
          cases w with
          | nil => exact ⟨a, b, c, d, rfl⟩
          | cons e r => simp at h

theorem tallyOne_correct (s : EvalState) (p l : ℕ) :
    (tallyOne s p l).correct = s.correct := rfl

theorem tallyOne_total (s : EvalState) (p l : ℕ) :
    (tallyOne s p l).total = s.total := rfl

theorem tallyOne_cc_length (s : EvalState) (p l : ℕ) :
    (tallyOne s p l).correct_class.length = s.correct_class.length := by
  simp [tallyOne, List.length_set]

theorem tallyOne_tc_length (s : EvalState) (p l : ℕ) :
    (tallyOne s p l).total_class.length = s.total_class.length := by
  simp [tallyOne, List.length_set]

theorem tallyOne_tc_getD (s : EvalState) (p l cls : ℕ)
    (hl : l < s.total_class.length) :
    (tallyOne s p l).total_class.getD cls 0 =
      s.total_class.getD cls 0 + (if l = cls then 1 else 0) := by
  simp only [tallyOne]
  rw [List.getD_eq_getElem?_getD, List.getElem?_set]
  by_cases h : l = cls
  · subst h
    simp only [if_pos rfl, hl, if_true]
    rw [List.getD_eq_getElem?_getD]
    simp
  · simp only [h, if_false]
    rw [← List.getD_eq_getElem?_getD]
    simp

theorem tallyOne_cc_getD (s : EvalState) (p l cls : ℕ)
    (hl : l < s.correct_class.length) :
    (tallyOne s p l).correct_class.getD cls 0 =
      s.correct_class.getD cls 0 + (if l = cls ∧ p = l then 1 else 0) := by
  simp only [tallyOne]
  rw [List.getD_eq_getElem?_getD, List.getElem?_set]
  by_cases h : l = cls
  · subst h
    simp only [if_pos rfl, hl, if_true]
    rw [List.getD_eq_getElem?_getD]
    by_cases hp : p = l
    · simp [hp]
    · simp [hp]
  · simp only [h, if_false]
    rw [← List.getD_eq_getElem?_getD]
    simp [h]

theorem classUpdate4 (s : EvalState) (p0 p1 p2 p3 l0 l1 l2 l3 : ℕ)
    (h10c : s.correct_class.length = 10) (h10t : s.total_class.length = 10)
    (h0 : l0 < 10) (h1 : l1 < 10) (h2 : l2 < 10) (h3 : l3 < 10) :
    classUpdate s [p0, p1, p2, p3] [l0, l1, l2, l3] =
      some (tallyOne (tallyOne (tallyOne (tallyOne s p0 l0) p1 l1) p2 l2) p3 l3) := by
  unfold classUpdate
  have hr : List.range 4 = [0, 1, 2, 3] := rfl
  rw [hr]
  simp only [List.foldlM, List.getElem?_cons_zero, List.getElem?_cons_succ,
    tallyOne_cc_length, tallyOne_tc_length, h10c, h10t, h0, h1, h2, h3,
    and_self, if_true, Option.bind_eq_bind, Option.some_bind]
  rfl

/-- Amended claim C3: for every batch of size exactly 4 (the only batch size
the per-class loop handles; the source's test split, 10000 samples at
batch size 4, produces only such batches) with true labels in [0,9], each
sample increments the per-class total counter keyed by its true label by
one, and the per-class correct counter keyed by the true label exactly when
the arg-max prediction equals the true label; the overall counters advance
by the batch size and the number of correct predictions. A batch of
size < 4 instead makes the hard-coded `range(4)` loop fail with an index
error (see the counterexample). -/
theorem claim_C3 :
    ∀ (α : Type) (f : α → List ℚ) (s : EvalState) (imgs : List α)
      (labels : List ℕ),
      s.correct_class.length = 10 → s.total_class.length = 10 →
      imgs.length = 4 → labels.length = 4 → (∀ l ∈ labels, l < 10) →
      ∃ s2, evalBatch f s (imgs, labels) = some s2 ∧
        s2.total = s.total + 4 ∧
        s2.correct = s.correct +
          ((imgs.map (fun x => argmax (f x))).zip labels).countP
            (fun pl => pl.1 == pl.2) ∧
        ∀ cls,
          s2.total_class.getD cls 0 =
            s.total_class.getD cls 0 + labels.count cls ∧
          s2.correct_class.getD cls 0 =
            s.correct_class.getD cls 0 +
              ((imgs.map (fun x => argmax (f x))).zip labels).countP
                (fun pl => pl.2 == cls && pl.1 == pl.2) := by
  intro α f s imgs labels h10c h10t hil hll hlab
  obtain ⟨x0, x1, x2, x3, rfl⟩ := list_len4 imgs hil
  obtain ⟨l0, l1, l2, l3, rfl⟩ := list_len4 labels hll
  have h0 : l0 < 10 := hlab l0 (by simp)
  have h1 : l1 < 10 := hlab l1 (by simp)
  have h2 : l2 < 10 := hlab l2 (by simp)
  have h3 : l3 < 10 := hlab l3 (by simp)
  refine ⟨tallyOne (tallyOne (tallyOne (tallyOne
      { s with
        total := s.total + [l0, l1, l2, l3].length,
        correct := s.correct +
          (([x0, x1, x2, x3].map (fun x => argmax (f x))).zip
            [l0, l1, l2, l3]).countP (fun pl => pl.1 == pl.2) }
      (argmax (f x0)) l0) (argmax (f x1)) l1) (argmax (f x2)) l2)
      (argmax (f x3)) l3, ?_, ?_, ?_, ?_⟩
  · show evalBatch f s ([x0, x1, x2, x3], [l0, l1, l2, l3]) = some _
    unfold evalBatch
    simp only [List.map_cons, List.map_nil]
    exact classUpdate4 _ (argmax (f x0)) (argmax (f x1)) (argmax (f x2))
      (argmax (f x3)) l0 l1 l2 l3 h10c h10t h0 h1 h2 h3
  · simp only [tallyOne_total]
    simp
  · simp only [tallyOne_correct]
  · intro cls
    constructor
    · rw [tallyOne_tc_getD _ _ l3 cls
        (by simp only [tallyOne_tc_length]
            show l3 < s.total_class.length
            omega)]
      rw [tallyOne_tc_getD _ _ l2 cls
        (by simp only [tallyOne_tc_length]
            show l2 < s.total_class.length
            omega)]
      rw [tallyOne_tc_getD _ _ l1 cls
        (by simp only [tallyOne_tc_length]
            show l1 < s.total_class.length
            omega)]
      rw [tallyOne_tc_getD _ _ l0 cls
        (by show l0 < s.total_class.length
            omega)]
      show s.total_class.getD cls 0 + _ + _ + _ + _ =
        s.total_class.getD cls 0 + _
      simp only [List.count_cons, List.count_nil, beq_iff_eq]
      split_ifs <;> omega
    · rw [tallyOne_cc_getD _ _ l3 cls
        (by simp only [tallyOne_cc_length]
            show l3 < s.correct_class.length
            omega)]
      rw [tallyOne_cc_getD _ _ l2 cls
        (by simp only [tallyOne_cc_length]
            show l2 < s.correct_class.length
            omega)]
      rw [tallyOne_cc_getD _ _ l1 cls
        (by simp only [tallyOne_cc_length]
            show l1 < s.correct_class.length
            omega)]
      rw [tallyOne_cc_getD _ _ l0 cls
        (by show l0 < s.correct_class.length
            omega)]
      show s.correct_class.getD cls 0 + _ + _ + _ + _ =
        s.correct_class.getD cls 0 + _
      simp only [List.map_cons, List.map_nil, List.zip_cons_cons,
        List.zip_nil_left, List.zip_nil_right, List.countP_cons,
        List.countP_nil, Bool.and_eq_true, beq_iff_eq, decide_eq_true_eq]
      split_ifs <;> omega

/-- Witness for the amended C3: one concrete batch of four samples whose
scores are all empty (arg-max 0), labels [0,0,3,4]: every counter advances
keyed by the true labels. -/
theorem claim_C3_witness :
    ∃ s2, evalBatch (fun _ : ℕ => ([] : List ℚ)) initEval
        ([0, 1, 2, 3], [0, 0, 3, 4]) = some s2 ∧
      s2.total = initEval.total + 4 ∧
      s2.correct = initEval.correct +
        ((([0, 1, 2, 3].map (fun x => argmax ((fun _ : ℕ => ([] : List ℚ)) x))).zip
            [0, 0, 3, 4]).countP (fun pl => pl.1 == pl.2)) ∧
      ∀ cls,
        s2.total_class.getD cls 0 =
          initEval.total_class.getD cls 0 + [0, 0, 3, 4].count cls ∧
        s2.correct_class.getD cls 0 =
          initEval.correct_class.getD cls 0 +
            ((([0, 1, 2, 3].map (fun x => argmax ((fun _ : ℕ => ([] : List ℚ)) x))).zip
                [0, 0, 3, 4]).countP (fun pl => pl.2 == cls && pl.1 == pl.2)) :=
  claim_C3 ℕ (fun _ => []) initEval [0, 1, 2, 3] [0, 0, 3, 4]
    rfl rfl rfl rfl (by decide)

/- ## Classifier

The notebook's CNN:

  class CNN(nn.Module):
      def __init__(self):
          self.conv1 = nn.Conv2d(1, 10, 5);  self.pool1 = nn.MaxPool2d(2, 2)
          self.conv2 = nn.Conv2d(10, 20, 5); self.pool2 = nn.MaxPool2d(2, 2)
          self.fc1 = nn.Linear(320, 50);     self.fc2 = nn.Linear(50, 10)
      def forward(self, x):
          x = self.pool1(F.relu(self.conv1(x)))
          x = self.pool2(F.relu(self.conv2(x)))
          x = x.view(x.size(0), -1)
          x = F.relu(self.fc1(x))
          x = F.relu(self.fc2(x))
          return x

Modelled from the spec: the layer math of nn.Conv2d, nn.MaxPool2d and
nn.Linear is the numeric collaborator's and explicitly out of the
specification's scope, so each layer is carried as a collaborator-supplied
function on activations together with the configuration the notebook passes
to it. F.relu (elementwise max(·,0)) and the flattening view, which are
part of the forward composition itself, are concrete. Activations of one
sample are (channels, H, W) grids of exact rationals. -/

abbrev Grid3 := List (List (List ℚ))

structure Conv2dM where
  inChannels : ℕ
  outChannels : ℕ
  kernel : ℕ
  apply : Grid3 → Grid3

structure MaxPool2dM where
  size : ℕ
  stride : ℕ
  apply : Grid3 → Grid3

structure LinearM where
  inFeatures : ℕ
  outFeatures : ℕ
  apply : List ℚ → List ℚ

structure CNN where
  conv1 : Conv2dM
  pool1 : MaxPool2dM
  conv2 : Conv2dM
  pool2 : MaxPool2dM
  fc1 : LinearM
  fc2 : LinearM

/-- CNN.__init__ with the notebook's layer configuration, over
collaborator-supplied layer functions. -/
def mkCNN (c1 c2 p1 p2 : Grid3 → Grid3) (f1 f2 : List ℚ → List ℚ) : CNN :=
  { conv1 := ⟨1, 10, 5, c1⟩, pool1 := ⟨2, 2, p1⟩,
    conv2 := ⟨10, 20, 5, c2⟩, pool2 := ⟨2, 2, p2⟩,
    fc1 := ⟨320, 50, f1⟩, fc2 := ⟨50, 10, f2⟩ }

/-- F.relu on a score vector: elementwise max(v, 0). -/
def relu1 (v : List ℚ) : List ℚ :=
  v.map (fun x => max x 0)

/-- F.relu on a (channels, H, W) activation grid. -/
def relu3 (g : Grid3) : Grid3 :=
  g.map (List.map (List.map (fun x => max x 0)))

/-- x.view(x.size(0), -1) for one sample: row-major flattening of the
(channels, H, W) activations into one feature vector. -/
def flatten3 (g : Grid3) : List ℚ :=
  g.flatten.flatten

/-- CNN.forward for one sample, exactly the source's composition — including
the final F.relu applied to fc2's output. -/
def forward (net : CNN) (x : Grid3) : List ℚ :=
  relu1 (net.fc2.apply (relu1 (net.fc1.apply (flatten3 (net.pool2.apply
    (relu3 (net.conv2.apply (net.pool1.apply (relu3 (net.conv1.apply x))))))))))

/-- The raw output vector of the final fully-connected layer (everything the
forward pass computes, without the source's final ReLU). -/
def fc2Raw (net : CNN) (x : Grid3) : List ℚ :=
  net.fc2.apply (relu1 (net.fc1.apply (flatten3 (net.pool2.apply
    (relu3 (net.conv2.apply (net.pool1.apply (relu3 (net.conv1.apply x)))))))))

/-- CNN.forward on a batch: per-sample forward. -/
def forwardBatch (net : CNN) (xs : List Grid3) : List (List ℚ) :=
  xs.map (forward net)

/-- A concrete collaborator instance for the counterexample: convolutions
with zero kernels and zero bias, identity pooling, fc1 a zero affine map and
fc2 the affine map with zero weights and every bias -1. -/
def cexNet : CNN :=
  mkCNN (fun _ => [[[0]]]) (fun _ => [[[0]]]) id id
    (fun _ => List.replicate 50 0) (fun _ => List.replicate 10 (-1))

/-- Counterexample to C1 as stated: the source applies one more F.relu after
fc2, so the per-sample output is NOT the raw output of the final
fully-connected layer: on `cexNet`, whose fc2 raw output is the constant -1
vector, the forward pass returns the zero vector instead. -/
theorem claim_C1_cex :
    forward cexNet [[[0]]] ≠ fc2Raw cexNet [[[0]]] ∧
    forward cexNet [[[0]]] = List.replicate 10 0 ∧
    fc2Raw cexNet [[[0]]] = List.replicate 10 (-1) := by
  refine ⟨?_, ?_, ?_⟩ <;> decide

/-- Amended claim C1: the forward pass computes conv(1,10,5) → ReLU →
max-pool(2,2) → conv(10,20,5) → ReLU → max-pool(2,2) → flatten →
fc(320,50) → ReLU → fc(50,10) → ReLU: there is one further transformation
after the final fully-connected layer, an elementwise ReLU, so each
component of the per-sample output is max(0, raw fc2 component), and the
layer configuration numbers are exactly as listed. -/
theorem claim_C1 :
    ∀ (c1 c2 p1 p2 : Grid3 → Grid3) (f1 f2 : List ℚ → List ℚ) (x : Grid3),
      ((mkCNN c1 c2 p1 p2 f1 f2).conv1.inChannels = 1 ∧
       (mkCNN c1 c2 p1 p2 f1 f2).conv1.outChannels = 10 ∧
       (mkCNN c1 c2 p1 p2 f1 f2).conv1.kernel = 5) ∧
      ((mkCNN c1 c2 p1 p2 f1 f2).pool1.size = 2 ∧
       (mkCNN c1 c2 p1 p2 f1 f2).pool1.stride = 2) ∧
      ((mkCNN c1 c2 p1 p2 f1 f2).conv2.inChannels = 10 ∧
       (mkCNN c1 c2 p1 p2 f1 f2).conv2.outChannels = 20 ∧
       (mkCNN c1 c2 p1 p2 f1 f2).conv2.kernel = 5) ∧
      ((mkCNN c1 c2 p1 p2 f1 f2).pool2.size = 2 ∧
       (mkCNN c1 c2 p1 p2 f1 f2).pool2.stride = 2) ∧
      ((mkCNN c1 c2 p1 p2 f1 f2).fc1.inFeatures = 320 ∧
       (mkCNN c1 c2 p1 p2 f1 f2).fc1.outFeatures = 50) ∧
      ((mkCNN c1 c2 p1 p2 f1 f2).fc2.inFeatures = 50 ∧
       (mkCNN c1 c2 p1 p2 f1 f2).fc2.outFeatures = 10) ∧
      forward (mkCNN c1 c2 p1 p2 f1 f2) x =
        relu1 (fc2Raw (mkCNN c1 c2 p1 p2 f1 f2) x) ∧
      (∀ i : ℕ, (forward (mkCNN c1 c2 p1 p2 f1 f2) x)[i]? =
        ((fc2Raw (mkCNN c1 c2 p1 p2 f1 f2) x)[i]?).map (fun v => max v 0)) ∧
      ∀ xs : List Grid3, forwardBatch (mkCNN c1 c2 p1 p2 f1 f2) xs =
        xs.map (fun y => relu1 (fc2Raw (mkCNN c1 c2 p1 p2 f1 f2) y)) := by
  intro c1 c2 p1 p2 f1 f2 x
  refine ⟨⟨rfl, rfl, rfl⟩, ⟨rfl, rfl⟩, ⟨rfl, rfl, rfl⟩, ⟨rfl, rfl⟩,
    ⟨rfl, rfl⟩, ⟨rfl, rfl⟩, rfl, ?_, ?_⟩
  · intro i
    show (relu1 (fc2Raw (mkCNN c1 c2 p1 p2 f1 f2) x))[i]? = _
    unfold relu1
    rw [List.getElem?_map]
  · intro xs
    rfl

end FMNIST
